import Mathlib

/-!
Verification of the Write-Buffer Flush Controller
(components/raftstore/src/store/worker/write_buffer_manager.rs).

The controller state holds two hash maps, `write_buffers : region_id -> bytes`
and `last_access : region_id -> instant`.  We embed each map as an association
list `List (Nat × Nat)`; the list order stands for the (unspecified) iteration
order of the hash map, and the map's contents are observed through `lookup`.
Instants and durations are `Nat`; `Instant::saturating_elapsed()` at current
time `now` is the saturating subtraction `now - time`.

Rust's `BinaryHeap` is embedded as the underlying array (a `List`), with
`sift_up` / `sift_down` / `sift_down_to_bottom` translated from the standard
library so that the array layout (observed by `BinaryHeap::iter`, which walks
the array in place) is reproduced exactly.  All recursions are fueled with a
fuel that provably dominates the number of iterations (sift-up strictly
descends towards the root, sift-down strictly descends in the array, the
pop loop shrinks the array), so the fueled functions agree with the loops.
-/

namespace WBFC

/-- Lookup in an association list: the contents view of `HashMap::get`. -/
def lookup : List (Nat × Nat) → Nat → Option Nat
  | [], _ => none
  | p :: l, k => if p.1 = k then some p.2 else lookup l k

/-- Removal of a key: the contents view of `HashMap::remove`. -/
def alRemove : List (Nat × Nat) → Nat → List (Nat × Nat)
  | [], _ => []
  | p :: l, k => if p.1 = k then alRemove l k else p :: alRemove l k

/-- Insertion of a binding: the contents view of `HashMap::insert`. -/
def alInsert (l : List (Nat × Nat)) (k v : Nat) : List (Nat × Nat) :=
  alRemove l k ++ [(k, v)]

/-- Keys of an association list. -/
def keys (l : List (Nat × Nat)) : List Nat := l.map Prod.fst

/-- `Config` of the controller (write_buffer_manager.rs, lines 17-24);
sizes in bytes, durations in seconds.  `check_interval` is irrelevant to the
planner and omitted. -/
structure Config where
  total_limit : Nat
  soft_limit : Nat
  flush_threshold : Nat
  evict_life_time : Nat
  max_flush_batch : Nat
deriving DecidableEq, Repr

/-- `WriteBufferManager` (lines 40-45): the two maps plus the config.  The
global-stats oracle is not stored; its two readings are passed to the planner
as explicit arguments. -/
structure WriteBufferManager where
  write_buffers : List (Nat × Nat)
  last_access : List (Nat × Nat)
  cfg : Config
deriving DecidableEq, Repr

/-- `record_size` (lines 57-60). -/
def record_size (st : WriteBufferManager) (region_id size : Nat) : WriteBufferManager :=
  { st with write_buffers := alInsert st.write_buffers region_id size }

/-- `record_access` (lines 192-194). -/
def record_access (st : WriteBufferManager) (region_id time : Nat) : WriteBufferManager :=
  { st with last_access := alInsert st.last_access region_id time }

/-- `mark_flush` (lines 196-204): remove the access entry; if it was newer
than the flush start time, put it back and skip the size update, else record
the post-flush size. -/
def mark_flush (st : WriteBufferManager) (id time size : Nat) : WriteBufferManager :=
  match lookup st.last_access id with
  | some la =>
    if time < la then
      { st with last_access := alInsert (alRemove st.last_access id) id la }
    else
      { st with last_access := alRemove st.last_access id,
                write_buffers := alInsert st.write_buffers id size }
  | none => { st with write_buffers := alInsert st.write_buffers id size }

/-- Stable insertion of one element into a list sorted by access time. -/
def sInsert (a : Nat × Nat) : List (Nat × Nat) → List (Nat × Nat)
  | [] => [a]
  | b :: l => if a.2 ≤ b.2 then a :: b :: l else b :: sInsert a l

/-- `accesses.sort_by_key(|(_, time)| *time)`: a stable sort by access time
(Rust's slice sort is stable, so entries with equal times keep the iteration
order of the map). -/
def sortByAccess : List (Nat × Nat) → List (Nat × Nat)
  | [] => []
  | a :: l => sInsert a (sortByAccess l)

/-! ### Rust `BinaryHeap`, embedded as its backing array -/

/-- Swap of two in-bounds positions; out of bounds leaves the array unchanged
(never happens along the translated call paths). -/
def hswap (a : List α) (i j : Nat) : List α :=
  match a.get? i, a.get? j with
  | some x, some y => (a.set i y).set j x
  | _, _ => a

/-- `BinaryHeap::sift_up` with floor `start`: bubble the element at `pos`
towards the root while it is strictly greater than its parent.  `pos`
strictly decreases, so fuel `a.length + 1` always suffices. -/
def siftUpFuel (lt : α → α → Bool) (d : α) (start : Nat) :
    Nat → List α → Nat → List α
  | 0, a, _ => a
  | fuel + 1, a, pos =>
    if pos ≤ start then a
    else
      let parent := (pos - 1) / 2
      if lt (a.getD parent d) (a.getD pos d) then
        siftUpFuel lt d start fuel (hswap a parent pos) parent
      else a

/-- `BinaryHeap::sift_down` at `pos`: descend along the greater child while
the element is strictly smaller than it.  `pos` strictly increases and is
bounded by the length, so fuel `a.length + 1` always suffices. -/
def siftDownFuel (lt : α → α → Bool) (d : α) :
    Nat → List α → Nat → List α
  | 0, a, _ => a
  | fuel + 1, a, pos =>
    let child := 2 * pos + 1
    if child + 1 < a.length then
      let child := if lt (a.getD (child + 1) d) (a.getD child d) then child else child + 1
      if lt (a.getD pos d) (a.getD child d) then
        siftDownFuel lt d fuel (hswap a pos child) child
      else a
    else if child + 1 = a.length then
      if lt (a.getD pos d) (a.getD child d) then hswap a pos child else a
    else a

def siftDown (lt : α → α → Bool) (d : α) (a : List α) (pos : Nat) : List α :=
  siftDownFuel lt d (a.length + 1) a pos

/-- `BinaryHeap::sift_down_to_bottom`: move the hole unconditionally to the
bottom along the greater-child path, then sift the element up with floor
`start`.  Used by `pop`. -/
def siftDownToBottomFuel (lt : α → α → Bool) (d : α) (start : Nat) :
    Nat → List α → Nat → List α
  | 0, a, _ => a
  | fuel + 1, a, pos =>
    let child := 2 * pos + 1
    if child + 1 < a.length then
      let child := if lt (a.getD (child + 1) d) (a.getD child d) then child else child + 1
      siftDownToBottomFuel lt d start fuel (hswap a pos child) child
    else if child + 1 = a.length then
      siftUpFuel lt d start (a.length + 1) (hswap a pos child) child
    else
      siftUpFuel lt d start (a.length + 1) a pos

def siftDownToBottom (lt : α → α → Bool) (d : α) (a : List α) (pos : Nat) : List α :=
  siftDownToBottomFuel lt d pos (a.length + 1) a pos

/-- `BinaryHeap::push`. -/
def heapPush (lt : α → α → Bool) (d : α) (a : List α) (x : α) : List α :=
  siftUpFuel lt d 0 (a.length + 1) (a ++ [x]) a.length

/-- `BinaryHeap::pop`: remove the last array element, swap it with the root,
return the old root and sift the moved element down to the bottom. -/
def heapPop (lt : α → α → Bool) (d : α) (a : List α) : Option (α × List α) :=
  match a with
  | [] => none
  | [x] => some (x, [])
  | _ :: _ :: _ =>
    let item := a.getLastD d
    let rest := a.dropLast
    some (a.getD 0 d, siftDownToBottom lt d (rest.set 0 item) 0)

/-- `BinaryHeap::from(vec)` rebuild: sift down every internal node, highest
index first. -/
def heapifyFuel (lt : α → α → Bool) (d : α) : Nat → List α → List α
  | 0, a => a
  | n + 1, a => heapifyFuel lt d n (siftDown lt d a n)

def heapify (lt : α → α → Bool) (d : α) (a : List α) : List α :=
  heapifyFuel lt d (a.length / 2) a

/-- Lexicographic strict order on `(i64, u64)` pairs, the derived `Ord` used
by the Stage A heap entries `(-(size as i64), id)`. -/
def pairLt (a b : Int × Nat) : Bool :=
  a.1 < b.1 || (a.1 == b.1 && a.2 < b.2)

/-- Lexicographic strict order on `(u64, u64, u64)` triples, the derived
`Ord` used by the Stage B heap entries `(priority, size, id)`. -/
def tripleLt (a b : Nat × Nat × Nat) : Bool :=
  a.1 < b.1 || (a.1 == b.1 && (a.2.1 < b.2.1 || (a.2.1 == b.2.1 && a.2.2 < b.2.2)))

def pdef : Int × Nat := (0, 0)
def tdef : Nat × Nat × Nat := (0, 0, 0)

/-! ### The planner -/

/-- The scan loop of `pick_one` (lines 94-109): walk the accesses sorted by
time while cold, tracking in `res` the largest candidate whose recorded size
reaches the flush threshold. -/
def pickOneScan (wb : List (Nat × Nat)) (cfg : Config) (now : Nat) :
    List (Nat × Nat) → Nat × Nat → Nat × Nat
  | [], res => res
  | (id, time) :: rest, res =>
    if cfg.evict_life_time ≤ now - time then
      match lookup wb id with
      | none => pickOneScan wb cfg now rest res
      | some size =>
        if size < cfg.flush_threshold then pickOneScan wb cfg now rest res
        else if res.2 < size then pickOneScan wb cfg now rest (id, size)
        else pickOneScan wb cfg now rest res
    else res

/-- `pick_one` body after the sort (lines 90-115): region id 0 in the scan
result means no cold-large candidate, in which case the coldest entry is
returned regardless of size. -/
def pickOneAux (wb : List (Nat × Nat)) (cfg : Config) (now : Nat)
    (accesses : List (Nat × Nat)) : Option Nat :=
  let res := pickOneScan wb cfg now accesses (0, 0)
  if res.1 = 0 then accesses.head?.map Prod.fst else some res.1

/-- `pick_one` (lines 90-115). -/
def pick_one (st : WriteBufferManager) (now : Nat) : Option Nat :=
  pickOneAux st.write_buffers st.cfg now (sortByAccess st.last_access)

/-- The loop of `fetch_by_access_time` (lines 119-139): while cold, push
`(-(size as i64), id)` onto a heap bounded by `max_flush_batch`, replacing
the heap maximum (the smallest size) through `peek_mut` when the heap is
full and the new size is strictly larger. -/
def fetchByAccessTimeGo (wb : List (Nat × Nat)) (cfg : Config) (now : Nat) :
    List (Nat × Nat) → List (Int × Nat) → List (Int × Nat)
  | [], h => h
  | (id, time) :: rest, h =>
    if cfg.evict_life_time ≤ now - time then
      match lookup wb id with
      | none => fetchByAccessTimeGo wb cfg now rest h
      | some size =>
        if size < cfg.flush_threshold then fetchByAccessTimeGo wb cfg now rest h
        else if h.length < cfg.max_flush_batch then
          fetchByAccessTimeGo wb cfg now rest (heapPush pairLt pdef h (-(size : Int), id))
        else if (-(size : Int)) < (h.getD 0 pdef).1 then
          fetchByAccessTimeGo wb cfg now rest
            (siftDown pairLt pdef (h.set 0 (-(size : Int), id)) 0)
        else fetchByAccessTimeGo wb cfg now rest h
    else h

/-- `fetch_by_access_time` (lines 117-141): the result is
`candidates.iter().map(|(_, id)| *id)`, i.e. the heap's backing array in
array order. -/
def fetchByAccessTime (wb : List (Nat × Nat)) (cfg : Config) (now : Nat)
    (accesses : List (Nat × Nat)) : List Nat :=
  (fetchByAccessTimeGo wb cfg now accesses []).map (fun p => p.2)

/-- The candidate-collection loop of `fetch_by_size` (lines 145-154):
every access entry whose recorded size reaches the threshold, as
`(size, id)`, in access order. -/
def sizeCandidates (wb : List (Nat × Nat)) (cfg : Config) :
    List (Nat × Nat) → List (Nat × Nat)
  | [] => []
  | (id, _) :: rest =>
    match lookup wb id with
    | none => sizeCandidates wb cfg rest
    | some size =>
      if size < cfg.flush_threshold then sizeCandidates wb cfg rest
      else (size, id) :: sizeCandidates wb cfg rest

/-- The priority array of `fetch_by_size` (lines 162-165):
`(size + 1024 * (n - pos), size, id)` where `n` is the candidate count. -/
def buildPriority (n : Nat) : Nat → List (Nat × Nat) → List (Nat × Nat × Nat)
  | _, [] => []
  | pos, (size, id) :: rest =>
    (size + 1024 * (n - pos), size, id) :: buildPriority n (pos + 1) rest

/-- The selection loop of `fetch_by_size` (lines 167-174): pop in descending
priority, push the id, stop once the popped size meets the remaining
choose-limit, else subtract it.  Fueled by the heap length, which `heapPop`
decreases by one. -/
def sizeLoopFuel : Nat → List (Nat × Nat × Nat) → Nat → List Nat
  | 0, _, _ => []
  | fuel + 1, h, cl =>
    match heapPop tripleLt tdef h with
    | none => []
    | some (x, h') =>
      if cl ≤ x.2.1 then [x.2.2]
      else x.2.2 :: sizeLoopFuel fuel h' (cl - x.2.1)

/-- `fetch_by_size` (lines 143-176).  Note the bare `candidates.pop()` on
line 161, which discards the last (most recently accessed) candidate, and
the absence of any `max_flush_batch` bound on the selection loop. -/
def fetchBySize (wb : List (Nat × Nat)) (cfg : Config)
    (accesses : List (Nat × Nat)) (mutable_mem_usage : Nat) : List Nat :=
  let candidates := (sizeCandidates wb cfg accesses).dropLast
  let choose_limit :=
    if cfg.total_limit < mutable_mem_usage then mutable_mem_usage / 2
    else cfg.soft_limit / 2
  let heap := heapify tripleLt tdef (buildPriority candidates.length 0 candidates)
  sizeLoopFuel heap.length heap choose_limit

/-- `pick_batch` body after the sort (lines 181-189). -/
def pickBatchAux (wb : List (Nat × Nat)) (cfg : Config) (now : Nat)
    (accesses : List (Nat × Nat)) (mutable_mem_usage : Nat) : List Nat :=
  let c1 := fetchByAccessTime wb cfg now accesses
  let c := if c1.isEmpty then fetchBySize wb cfg accesses mutable_mem_usage else c1
  if c.isEmpty then
    (accesses.take (min (accesses.length / 2) cfg.max_flush_batch)).map Prod.fst
  else c

/-- `pick_batch` (lines 178-190). -/
def pick_batch (st : WriteBufferManager) (now mutable_mem_usage : Nat) : List Nat :=
  pickBatchAux st.write_buffers st.cfg now (sortByAccess st.last_access) mutable_mem_usage

/-- `pick_to_flush` (lines 62-88), with the two oracle readings passed in. -/
def pick_to_flush (st : WriteBufferManager) (now mem_usage mutable_mem_usage : Nat) :
    List Nat :=
  if mem_usage < st.cfg.soft_limit then []
  else if mutable_mem_usage < st.cfg.soft_limit ∧ mem_usage < st.cfg.total_limit then []
  else if mutable_mem_usage < st.cfg.soft_limit then
    match pick_one st now with
    | some id => [id]
    | none => []
  else pick_batch st now mutable_mem_usage

/-! ### The executor -/

/-- What the executor observes of a tablet: whether `flush(true)` succeeded
(the error itself is only logged) and the post-flush
`get_engine_memory_usage` reading. -/
structure TabletState where
  flush_ok : Bool
  mem_after : Nat
deriving DecidableEq, Repr

/-- The loop of `on_timeout` (lines 250-264): for each victim, a missing
tablet aborts the rest of the batch (`return`); a flush error is only
logged; `mark_flush` records the post-flush size either way.  `now`
abstracts the per-victim `Instant::now()` reading. -/
def execBatch (tablets : Nat → Option TabletState) (now : Nat) :
    WriteBufferManager → List Nat → WriteBufferManager
  | st, [] => st
  | st, region_id :: rest =>
    match tablets region_id with
    | none => st
    | some tab => execBatch tablets now (mark_flush st region_id now tab.mem_after) rest

/-- `on_timeout` (lines 245-265). -/
def on_timeout (tablets : Nat → Option TabletState) (now mem_usage mutable_mem_usage : Nat)
    (st : WriteBufferManager) : WriteBufferManager :=
  let to_flush := pick_to_flush st now mem_usage mutable_mem_usage
  if to_flush.isEmpty then st else execBatch tablets now st to_flush

/-! ### Spec-side definitions (for refinement claims) -/

/-- The planner's decision ladder exactly as the spec words it: no pressure,
immutable-heavy, single-flush regime, batch regime. -/
def pickToFlushLadder (st : WriteBufferManager) (now mem_usage mutable_mem_usage : Nat) :
    List Nat :=
  if mem_usage < st.cfg.soft_limit then []
  else if mutable_mem_usage < st.cfg.soft_limit ∧ mem_usage < st.cfg.total_limit then []
  else if mutable_mem_usage < st.cfg.soft_limit then
    match pick_one st now with
    | some id => [id]
    | none => []
  else pick_batch st now mutable_mem_usage

/-- Stage B as the claim words it: the candidate set is exactly all regions
with a recorded size at least `flush_threshold`, and the choose-limit is
`M_mutable / 2` when `M_mutable > total_limit`, else `soft_limit / 2`. -/
def fetchBySizeClaimed (wb : List (Nat × Nat)) (cfg : Config)
    (accesses : List (Nat × Nat)) (mutable_mem_usage : Nat) : List Nat :=
  let candidates := accesses.filterMap (fun p =>
    match lookup wb p.1 with
    | none => none
    | some s => if s < cfg.flush_threshold then none else some (s, p.1))
  let choose_limit :=
    if cfg.total_limit < mutable_mem_usage then mutable_mem_usage / 2
    else cfg.soft_limit / 2
  let heap := heapify tripleLt tdef (buildPriority candidates.length 0 candidates)
  sizeLoopFuel heap.length heap choose_limit

/-- Stage B as amended: identical to `fetchBySizeClaimed` except that the
last-collected (most recently accessed) qualifying candidate is discarded
before selection, as the bare `candidates.pop()` on line 161 does. -/
def fetchBySizeAmended (wb : List (Nat × Nat)) (cfg : Config)
    (accesses : List (Nat × Nat)) (mutable_mem_usage : Nat) : List Nat :=
  let candidates := (accesses.filterMap (fun p =>
    match lookup wb p.1 with
    | none => none
    | some s => if s < cfg.flush_threshold then none else some (s, p.1))).dropLast
  let choose_limit :=
    if cfg.total_limit < mutable_mem_usage then mutable_mem_usage / 2
    else cfg.soft_limit / 2
  let heap := heapify tripleLt tdef (buildPriority candidates.length 0 candidates)
  sizeLoopFuel heap.length heap choose_limit

/-- What the executor reads from a tablet lookup, besides the flush error
which it only logs: presence and the post-flush memory reading. -/
def tabletView (t : Option TabletState) : Option Nat :=
  t.map TabletState.mem_after

/-- The post-flush size `execBatch` hands to `mark_flush` (only ever used
when the tablet is present). -/
def afterSize : Option TabletState → Nat
  | some t => t.mem_after
  | none => 0

/-! ### Concrete inputs used by the individual claims -/

/-- C1: max_flush_batch 1; three warm regions of size 2, none cold. -/
def cfgC1 : Config := ⟨100, 10, 1, 1000, 1⟩
def stC1 : WriteBufferManager :=
  ⟨[(1, 2), (2, 2), (3, 2)], [(1, 1999), (2, 1998), (3, 1997)], cfgC1⟩

/-- C2: one cold region tracked in `last_access` only. -/
def cfgC2 : Config := ⟨8, 5, 1, 10, 8⟩
def stC2 : WriteBufferManager := ⟨[], [(7, 0)], cfgC2⟩

/-- C3: two regions with equal access times and equal sizes, in the two
possible iteration orders of the same map contents. -/
def cfgC3 : Config := ⟨100, 1, 1, 10, 1⟩
def stC3a : WriteBufferManager := ⟨[(5, 7), (3, 7)], [(5, 10), (3, 10)], cfgC3⟩
def stC3b : WriteBufferManager := ⟨[(5, 7), (3, 7)], [(3, 10), (5, 10)], cfgC3⟩

/-- C3 witness: distinct access times, permuted iteration orders. -/
def stC3c : WriteBufferManager := ⟨[(5, 7), (3, 7)], [(5, 10), (3, 20)], cfgC3⟩
def stC3d : WriteBufferManager := ⟨[(5, 7), (3, 7)], [(3, 20), (5, 10)], cfgC3⟩

/-- C5: scenario 4 of the spec, sizes in MiB: R1..R10 of sizes 10..1, all
last accessed 40 minutes ago (limits in MiB, durations in seconds). -/
def cfgC5 : Config := ⟨5120, 2048, 1, 1800, 8⟩
def stC5 : WriteBufferManager :=
  ⟨[(1, 10), (2, 9), (3, 8), (4, 7), (5, 6), (6, 5), (7, 4), (8, 3), (9, 2), (10, 1)],
   [(1, 0), (2, 0), (3, 0), (4, 0), (5, 0), (6, 0), (7, 0), (8, 0), (9, 0), (10, 0)],
   cfgC5⟩

/-- C6: one single qualifying candidate. -/
def cfgC6 : Config := ⟨100, 10, 1, 1000, 8⟩

/-- C7 witness state: region 1 accessed at 10, size 100 recorded. -/
def stC7 : WriteBufferManager := ⟨[(1, 100)], [(1, 10)], ⟨100, 10, 1, 1000, 8⟩⟩

/-- C8: severe pressure but a single tracked region with no recorded size. -/
def cfgC8 : Config := ⟨100, 10, 1, 1000, 8⟩
def stC8 : WriteBufferManager := ⟨[], [(1, 100)], cfgC8⟩

/-- C9 witness: a state that selects region 7, and two tablet registries
differing only in the flush-error outcome for region 7. -/
def cfgC9 : Config := ⟨8, 5, 1, 10, 8⟩
def stC9 : WriteBufferManager := ⟨[], [(7, 0)], cfgC9⟩
def tbC9a : Nat → Option TabletState := fun id => if id = 7 then some ⟨true, 42⟩ else none
def tbC9b : Nat → Option TabletState := fun id => if id = 7 then some ⟨false, 42⟩ else none

/-- C10: region id 0 is itself the largest cold qualifying candidate. -/
def cfgC10 : Config := ⟨100, 10, 1, 10, 8⟩
def stC10 : WriteBufferManager := ⟨[(0, 5)], [(0, 0)], cfgC10⟩

/-! ### Association-list lemmas -/

theorem lookup_alRemove (l : List (Nat × Nat)) (k j : Nat) :
    lookup (alRemove l k) j = if j = k then none else lookup l j := by
  induction l with
  | nil => simp [lookup, alRemove]
  | cons p t ih =>
    by_cases hpk : p.1 = k
    · simp only [alRemove, if_pos hpk, ih, lookup]
      by_cases hjk : j = k
      · simp [hjk]
      · have : ¬ p.1 = j := fun h => hjk (by rw [← h, hpk])
        simp [hjk, lookup, this]
    · simp only [alRemove, if_neg hpk, lookup]
      by_cases hpj : p.1 = j
      · have hjk : ¬ j = k := fun h => hpk (by rw [hpj, h])
        simp [hpj, hjk]
      · simp [hpj, ih]

theorem lookup_append (l₁ l₂ : List (Nat × Nat)) (j : Nat) :
    lookup (l₁ ++ l₂) j =
      match lookup l₁ j with
      | some v => some v
      | none => lookup l₂ j := by
  induction l₁ with
  | nil => simp [lookup]
  | cons p t ih =>
    by_cases hpj : p.1 = j
    · simp [lookup, hpj]
    · simp [lookup, hpj, ih]

theorem lookup_alInsert (l : List (Nat × Nat)) (k v j : Nat) :
    lookup (alInsert l k v) j = if j = k then some v else lookup l j := by
  unfold alInsert
  rw [lookup_append, lookup_alRemove]
  by_cases hjk : j = k
  · simp [hjk, lookup]
  · simp only [if_neg hjk]
    cases lookup l j with
    | some v' => simp
    | none =>
      have hkj : ¬ k = j := fun h => hjk h.symm
      simp [lookup, hkj]

/-- C7.  `mark_flush(id, t, s)`: a `last_access[id]` strictly newer than `t`
is preserved and both maps are left unchanged (as contents); otherwise the
access entry for `id` is removed (other entries untouched) and
`write_buffers[id]` becomes `s` (other entries untouched). -/
theorem mark_flush_spec (st : WriteBufferManager) (id t s : Nat) :
    (∀ v, lookup st.last_access id = some v → t < v →
      (∀ k, lookup (mark_flush st id t s).last_access k = lookup st.last_access k) ∧
      (mark_flush st id t s).write_buffers = st.write_buffers) ∧
    ((∀ v, lookup st.last_access id = some v → v ≤ t) →
      lookup (mark_flush st id t s).last_access id = none ∧
      (∀ k, ¬ k = id → lookup (mark_flush st id t s).last_access k = lookup st.last_access k) ∧
      (∀ k, lookup (mark_flush st id t s).write_buffers k =
        if k = id then some s else lookup st.write_buffers k)) := by
  constructor
  · intro v hv htv
    unfold mark_flush
    rw [hv]
    simp only [if_pos htv]
    constructor
    · intro k
      rw [lookup_alInsert, lookup_alRemove]
      by_cases hk : k = id
      · simp [hk, ← hv]
      · simp [hk]
    · trivial
  · intro hle
    unfold mark_flush
    cases hv : lookup st.last_access id with
    | some v =>
      have : ¬ t < v := Nat.not_lt.mpr (hle v hv)
      simp only [if_neg this]
      refine ⟨?_, ?_, ?_⟩
      · rw [lookup_alRemove]; simp
      · intro k hk; rw [lookup_alRemove]; simp [hk]
      · intro k; rw [lookup_alInsert]
    | none =>
      refine ⟨?_, ?_, ?_⟩
      · exact hv
      · intro k _; rfl
      · intro k; rw [lookup_alInsert]

/-- C7 witness: at `stC7` (access time 10 for region 1), a flush that began
at time 5 preserves the newer access and the old size, and a flush that
began at time 20 clears the access entry and records the new size. -/
theorem mark_flush_spec_witness :
    (lookup stC7.last_access 1 = some 10 ∧ 5 < 10 ∧
      lookup (mark_flush stC7 1 5 2).last_access 1 = lookup stC7.last_access 1 ∧
      (mark_flush stC7 1 5 2).write_buffers = stC7.write_buffers) ∧
    ((∀ v, lookup stC7.last_access 1 = some v → v ≤ 20) ∧
      lookup (mark_flush stC7 1 20 2).last_access 1 = none ∧
      lookup (mark_flush stC7 1 20 2).write_buffers 1 = some 2) := by
  have h1 := (mark_flush_spec stC7 1 5 2).1 10 (by decide) (by decide)
  have h2 := (mark_flush_spec stC7 1 20 2).2 (by decide)
  refine ⟨⟨by decide, by decide, h1.1 1, h1.2⟩, by decide, h2.1, ?_⟩
  rw [h2.2.2 1]
  decide

/-! ### Sort lemmas -/

theorem sInsert_perm (a : Nat × Nat) (l : List (Nat × Nat)) :
    (sInsert a l).Perm (a :: l) := by
  induction l with
  | nil => simp [sInsert]
  | cons b t ih =>
    simp only [sInsert]
    split
    · exact List.Perm.refl _
    · exact (ih.cons b).trans (List.Perm.swap a b t)

theorem sortByAccess_perm (l : List (Nat × Nat)) : (sortByAccess l).Perm l := by
  induction l with
  | nil => simp [sortByAccess]
  | cons a t ih => exact (sInsert_perm a (sortByAccess t)).trans (ih.cons a)

theorem mem_sortByAccess {p : Nat × Nat} {l : List (Nat × Nat)} :
    p ∈ sortByAccess l ↔ p ∈ l :=
  (sortByAccess_perm l).mem_iff

theorem length_sortByAccess (l : List (Nat × Nat)) :
    (sortByAccess l).length = l.length :=
  (sortByAccess_perm l).length_eq

theorem sInsert_pairwise (a : Nat × Nat) (l : List (Nat × Nat))
    (h : l.Pairwise (fun p q => p.2 ≤ q.2)) :
    (sInsert a l).Pairwise (fun p q => p.2 ≤ q.2) := by
  induction l with
  | nil => simp [sInsert]
  | cons b t ih =>
    simp only [sInsert]
    rw [List.pairwise_cons] at h
    split
    · rename_i hab
      rw [List.pairwise_cons]
      refine ⟨?_, List.pairwise_cons.mpr h⟩
      intro q hq
      rcases List.mem_cons.mp hq with hq | hq
      · exact hq ▸ hab
      · exact Nat.le_trans hab (h.1 q hq)
    · rename_i hab
      rw [List.pairwise_cons]
      refine ⟨?_, ih h.2⟩
      intro q hq
      rcases List.mem_cons.mp ((sInsert_perm a t).mem_iff.mp hq) with hq | hq
      · exact hq ▸ Nat.le_of_lt (Nat.lt_of_not_le hab)
      · exact h.1 q hq

theorem sortByAccess_pairwise (l : List (Nat × Nat)) :
    (sortByAccess l).Pairwise (fun p q => p.2 ≤ q.2) := by
  induction l with
  | nil => simp [sortByAccess]
  | cons a t ih => exact sInsert_pairwise a (sortByAccess t) ih

/-- Two iteration orders of the same `last_access` contents sort to the same
list when no two entries carry the same access time. -/
theorem sortByAccess_eq_of_perm (l₁ l₂ : List (Nat × Nat)) (hp : l₁.Perm l₂)
    (hd : l₁.Pairwise (fun p q => p.2 ≠ q.2)) :
    sortByAccess l₁ = sortByAccess l₂ := by
  have hs : (sortByAccess l₁).Perm (sortByAccess l₂) :=
    (sortByAccess_perm l₁).trans (hp.trans (sortByAccess_perm l₂).symm)
  have hsymm : ∀ {p q : Nat × Nat}, p.2 ≠ q.2 → q.2 ≠ p.2 := fun h => h.symm
  have hd₁ : (sortByAccess l₁).Pairwise (fun p q => p.2 ≠ q.2) :=
    (List.Perm.pairwise_iff hsymm (sortByAccess_perm l₁)).mpr hd
  have hd₂ : (sortByAccess l₂).Pairwise (fun p q => p.2 ≠ q.2) :=
    (List.Perm.pairwise_iff hsymm hs).mp hd₁
  have hlt₁ : (sortByAccess l₁).Pairwise (fun p q => p.2 < q.2) :=
    ((sortByAccess_pairwise l₁).and hd₁).imp
      (fun h => Nat.lt_of_le_of_ne h.1 h.2)
  have hlt₂ : (sortByAccess l₂).Pairwise (fun p q => p.2 < q.2) :=
    ((sortByAccess_pairwise l₂).and hd₂).imp
      (fun h => Nat.lt_of_le_of_ne h.1 h.2)
  haveI : IsAntisymm (Nat × Nat) (fun p q => p.2 < q.2) :=
    ⟨fun _ _ h1 h2 => absurd h2 (Nat.lt_asymm h1)⟩
  exact List.eq_of_perm_of_sorted hs hlt₁ hlt₂

/-- C3 counterexample: the two iteration orders of one and the same map
contents (write buffers `{3 ↦ 7, 5 ↦ 7}`, last access `{3 ↦ 10, 5 ↦ 10}`)
give different planner outputs under identical oracle readings, and neither
run breaks the size tie in favour of the smaller region id in first
position. -/
theorem planner_order_dependent :
    stC3a.write_buffers = stC3b.write_buffers ∧
    stC3a.last_access.Perm stC3b.last_access ∧
    stC3a.cfg = stC3b.cfg ∧
    pick_to_flush stC3a 100 50 50 = [5] ∧
    pick_to_flush stC3b 100 50 50 = [3] := by
  refine ⟨rfl, ?_, rfl, by decide, by decide⟩
  decide

/-- C3 as amended: the planner is a pure function of the map state; for
identical write-buffer contents and permuted `last_access` contents whose
access times are pairwise distinct, the output is identical.  With equal
access times the output depends on the map iteration order, and ties between
equal sizes are not broken by region id (see the counterexample). -/
theorem planner_deterministic_of_distinct_times
    (wb la₁ la₂ : List (Nat × Nat)) (cfg : Config) (now mem mutm : Nat)
    (hperm : la₁.Perm la₂)
    (hdist : la₁.Pairwise (fun p q => p.2 ≠ q.2)) :
    pick_to_flush ⟨wb, la₁, cfg⟩ now mem mutm = pick_to_flush ⟨wb, la₂, cfg⟩ now mem mutm := by
  have hs := sortByAccess_eq_of_perm la₁ la₂ hperm hdist
  simp only [pick_to_flush, pick_one, pick_batch, hs]

/-- C3 witness: with distinct access times, the two iteration orders of the
same contents agree. -/
theorem planner_deterministic_of_distinct_times_witness :
    stC3c.last_access.Perm stC3d.last_access ∧
    stC3c.last_access.Pairwise (fun p q => p.2 ≠ q.2) ∧
    pick_to_flush stC3c 100 50 50 = pick_to_flush stC3d 100 50 50 := by
  refine ⟨by decide, by decide, ?_⟩
  exact planner_deterministic_of_distinct_times
    stC3c.write_buffers stC3c.last_access stC3d.last_access cfgC3 100 50 50
    (by decide) (by decide)

/-! ### C4: the decision ladder -/

/-- C4.  `pick_to_flush` follows the spec's decision ladder in order, first
matching branch returning: no pressure, immutable-heavy, single-flush
regime via `pick_one`, batch regime via `pick_batch`. -/
theorem pick_to_flush_ladder (st : WriteBufferManager) (now mem_usage mutable_mem_usage : Nat) :
    pick_to_flush st now mem_usage mutable_mem_usage =
      pickToFlushLadder st now mem_usage mutable_mem_usage := rfl

/-! ### C6: the Stage B candidate set -/

theorem sizeCandidates_eq_filterMap (wb : List (Nat × Nat)) (cfg : Config)
    (accesses : List (Nat × Nat)) :
    sizeCandidates wb cfg accesses =
      accesses.filterMap (fun p =>
        match lookup wb p.1 with
        | none => none
        | some s => if s < cfg.flush_threshold then none else some (s, p.1)) := by
  induction accesses with
  | nil => rfl
  | cons a rest ih =>
    obtain ⟨id, time⟩ := a
    rw [List.filterMap_cons]
    simp only [sizeCandidates]
    cases hw : lookup wb id with
    | none => simpa [hw] using ih
    | some s =>
      by_cases hs : s < cfg.flush_threshold
      · simpa [hw, hs] using ih
      · simpa [hw, hs] using ih

/-- C6 counterexample: with the single qualifying candidate
`(region 1, size 5)` the code's Stage B returns nothing — the bare
`candidates.pop()` on line 161 discards it — while the claimed candidate set
(all regions of size ≥ `flush_threshold`) would select region 1. -/
theorem fetchBySize_drops_candidate :
    fetchBySize [(1, 5)] cfgC6 [(1, 0)] 0 = [] ∧
    fetchBySizeClaimed [(1, 5)] cfgC6 [(1, 0)] 0 = [1] := by decide

/-- C6 as amended: the Stage B candidate set is all regions with a recorded
size ≥ `flush_threshold` except the last-collected (most recently accessed)
one, which `candidates.pop()` discards; the choose-limit is as the claim
states it. -/
theorem fetchBySize_eq_amended (wb : List (Nat × Nat)) (cfg : Config)
    (accesses : List (Nat × Nat)) (mutable_mem_usage : Nat) :
    fetchBySize wb cfg accesses mutable_mem_usage =
      fetchBySizeAmended wb cfg accesses mutable_mem_usage := by
  unfold fetchBySize fetchBySizeAmended
  rw [sizeCandidates_eq_filterMap]

/-! ### C1: the batch bound -/

/-- C1.  The claim fails: `fetch_by_size` has no `max_flush_batch` bound on
its selection loop.  At `stC1` (max_flush_batch 1, three warm regions of
size 2 each, choose-limit `soft_limit / 2 = 5`) the planner returns two
regions. -/
theorem pick_to_flush_exceeds_batch :
    pick_to_flush stC1 2000 10 10 = [3, 2] ∧
    ¬ (pick_to_flush stC1 2000 10 10).length ≤ stC1.cfg.max_flush_batch := by decide

/-! ### C5: Stage A and scenario 4 -/

/-- C5 counterexample: in the spec's scenario 4 (R1..R10 all cold, sizes
10..1 MiB, max_flush_batch 8) the output is not `[R1..R8]` in descending
size order: Stage A emits the bounded heap's backing array in array order,
whose first element is the heap maximum `(-(3 MiB), R8)`, the *smallest*
of the eight survivors. -/
theorem pick_batch_scenario_not_descending :
    pick_batch stC5 2400 5000 ≠ [1, 2, 3, 4, 5, 6, 7, 8] := by decide

/-- C5 as amended: in scenario 4 the output is the 8 largest cold tablets
R1..R8 as a set — concretely the heap array `[8, 7, 6, 4, 3, 2, 5, 1]` — but
in the heap's internal order, not descending by size. -/
theorem pick_batch_scenario_perm :
    pick_batch stC5 2400 5000 = [8, 7, 6, 4, 3, 2, 5, 1] ∧
    (pick_batch stC5 2400 5000).Perm [1, 2, 3, 4, 5, 6, 7, 8] := by decide

/-! ### C8: Stage C -/

/-- C8 counterexample: under severe pressure (both readings at 50, soft
limit 10) with one tracked region the planner returns the empty list —
`min(|last_access| / 2, max_flush_batch) = 0` — refuting the guarantee that
the controller never becomes a no-op while it holds tracked regions. -/
theorem pick_batch_empty_under_pressure :
    stC8.cfg.soft_limit ≤ 50 ∧
    stC8.last_access ≠ [] ∧
    pick_to_flush stC8 100 50 50 = [] := by decide

/-- C8 as amended: when Stage A and Stage B both produce no candidates,
`pick_batch` returns the oldest `min(|last_access| / 2, max_flush_batch)`
regions by access time, ignoring size; in particular the result is empty
whenever fewer than two regions are tracked, so the planner can be a no-op
under severe pressure. -/
theorem pick_batch_last_resort (wb la : List (Nat × Nat)) (cfg : Config) (now mutm : Nat)
    (h1 : fetchByAccessTime wb cfg now (sortByAccess la) = [])
    (h2 : fetchBySize wb cfg (sortByAccess la) mutm = []) :
    pick_batch ⟨wb, la, cfg⟩ now mutm =
      ((sortByAccess la).take (min ((sortByAccess la).length / 2) cfg.max_flush_batch)).map
        Prod.fst ∧
    (la.length ≤ 1 → pick_batch ⟨wb, la, cfg⟩ now mutm = []) := by
  have hmain : pick_batch ⟨wb, la, cfg⟩ now mutm =
      ((sortByAccess la).take (min ((sortByAccess la).length / 2) cfg.max_flush_batch)).map
        Prod.fst := by
    simp [pick_batch, pickBatchAux, h1, h2]
  refine ⟨hmain, fun hlen => ?_⟩
  rw [hmain]
  have : (sortByAccess la).length / 2 = 0 := by
    rw [length_sortByAccess]
    omega
  simp [this]

/-- C8 witness: the state `stC8` discharges both emptiness hypotheses. -/
theorem pick_batch_last_resort_witness :
    fetchByAccessTime stC8.write_buffers cfgC8 100 (sortByAccess stC8.last_access) = [] ∧
    fetchBySize stC8.write_buffers cfgC8 (sortByAccess stC8.last_access) 50 = [] ∧
    pick_batch stC8 100 50 =
      ((sortByAccess stC8.last_access).take
        (min ((sortByAccess stC8.last_access).length / 2) cfgC8.max_flush_batch)).map
        Prod.fst ∧
    (stC8.last_access.length ≤ 1 → pick_batch stC8 100 50 = []) := by
  refine ⟨by decide, by decide, ?_⟩
  exact pick_batch_last_resort stC8.write_buffers stC8.last_access cfgC8 100 50
    (by decide) (by decide)

/-! ### Heap membership lemmas -/

theorem hswap_subset {a : List α} {i j : Nat} {x : α} (h : x ∈ hswap a i j) : x ∈ a := by
  unfold hswap at h
  split at h
  · rename_i y z hy hz
    rcases List.mem_or_eq_of_mem_set h with h' | h'
    · rcases List.mem_or_eq_of_mem_set h' with h'' | h''
      · exact h''
      · exact h'' ▸ List.get?_mem hz
    · exact h' ▸ List.get?_mem hy
  · exact h

theorem siftUpFuel_subset (lt : α → α → Bool) (d : α) (start : Nat) :
    ∀ (fuel : Nat) (a : List α) (pos : Nat) {x : α},
      x ∈ siftUpFuel lt d start fuel a pos → x ∈ a := by
  intro fuel
  induction fuel with
  | zero => intro a pos x h; exact h
  | succ n ih =>
    intro a pos x h
    simp only [siftUpFuel] at h
    split at h
    · exact h
    · split at h
      · exact hswap_subset (ih _ _ h)
      · exact h

theorem siftDownFuel_subset (lt : α → α → Bool) (d : α) :
    ∀ (fuel : Nat) (a : List α) (pos : Nat) {x : α},
      x ∈ siftDownFuel lt d fuel a pos → x ∈ a := by
  intro fuel
  induction fuel with
  | zero => intro a pos x h; exact h
  | succ n ih =>
    intro a pos x h
    simp only [siftDownFuel] at h
    repeat' split at h
    all_goals first
      | exact hswap_subset (ih _ _ h)
      | exact hswap_subset h
      | exact h

theorem siftDownToBottomFuel_subset (lt : α → α → Bool) (d : α) (start : Nat) :
    ∀ (fuel : Nat) (a : List α) (pos : Nat) {x : α},
      x ∈ siftDownToBottomFuel lt d start fuel a pos → x ∈ a := by
  intro fuel
  induction fuel with
  | zero => intro a pos x h; exact h
  | succ n ih =>
    intro a pos x h
    simp only [siftDownToBottomFuel] at h
    repeat' split at h
    all_goals first
      | exact hswap_subset (ih _ _ h)
      | exact hswap_subset (siftUpFuel_subset lt d start _ _ _ h)
      | exact siftUpFuel_subset lt d start _ _ _ h

theorem heapPush_subset (lt : α → α → Bool) (d : α) (a : List α) (y : α) {x : α}
    (h : x ∈ heapPush lt d a y) : x ∈ a ∨ x = y := by
  unfold heapPush at h
  have := siftUpFuel_subset lt d 0 _ _ _ h
  rcases List.mem_append.mp this with h' | h'
  · exact Or.inl h'
  · exact Or.inr (List.mem_singleton.mp h')

theorem heapPop_subset (lt : α → α → Bool) (d : α) (a : List α) {y : α} {h' : List α}
    (h : heapPop lt d a = some (y, h')) : y ∈ a ∧ ∀ x ∈ h', x ∈ a := by
  match a, h with
  | [z], h =>
    simp only [heapPop] at h
    injection h with h
    injection h with h1 h2
    subst h1; subst h2
    exact ⟨List.mem_singleton.mpr rfl, fun x hx => absurd hx (List.not_mem_nil x)⟩
  | z₁ :: z₂ :: t, h =>
    simp only [heapPop] at h
    injection h with h
    injection h with h1 h2
    have hitem : (z₁ :: z₂ :: t).getLastD d ∈ z₁ :: z₂ :: t := by
      rw [List.getLastD_cons]
      exact List.getLastD_mem_cons _ _
    constructor
    · rw [← h1]
      exact List.mem_cons_self _ _
    · intro x hx
      rw [← h2] at hx
      simp only [siftDownToBottom] at hx
      have hx₂ := siftDownToBottomFuel_subset lt d 0 _ _ _ hx
      rcases List.mem_or_eq_of_mem_set hx₂ with hx₃ | hx₃
      · exact List.dropLast_subset _ hx₃
      · exact hx₃ ▸ hitem

theorem heapifyFuel_subset (lt : α → α → Bool) (d : α) :
    ∀ (n : Nat) (a : List α) {x : α}, x ∈ heapifyFuel lt d n a → x ∈ a := by
  intro n
  induction n with
  | zero => intro a x h; exact h
  | succ m ih =>
    intro a x h
    simp only [heapifyFuel] at h
    exact siftDownFuel_subset lt d _ _ _ (ih _ h)

/-! ### Planner membership lemmas -/

theorem keys_cons (p : Nat × Nat) (l : List (Nat × Nat)) :
    keys (p :: l) = p.1 :: keys l := rfl

theorem mem_keys_of_mem {p : Nat × Nat} {l : List (Nat × Nat)} (h : p ∈ l) :
    p.1 ∈ keys l := List.mem_map_of_mem Prod.fst h

theorem mem_keys_sortByAccess {id : Nat} {l : List (Nat × Nat)} :
    id ∈ keys (sortByAccess l) ↔ id ∈ keys l :=
  ((sortByAccess_perm l).map Prod.fst).mem_iff

theorem pickOneScan_fst (wb : List (Nat × Nat)) (cfg : Config) (now : Nat) :
    ∀ (accs : List (Nat × Nat)) (res : Nat × Nat),
      (pickOneScan wb cfg now accs res).1 = res.1 ∨
      (pickOneScan wb cfg now accs res).1 ∈ keys accs := by
  intro accs
  induction accs with
  | nil => intro res; exact Or.inl rfl
  | cons a rest ih =>
    intro res
    obtain ⟨id, time⟩ := a
    simp only [pickOneScan, keys_cons, List.mem_cons]
    split
    · split
      · rcases ih res with h | h <;> simp [h]
      · split
        · rcases ih res with h | h <;> simp [h]
        · split
          · rename_i sz _ _ _
            rcases ih (id, sz) with h | h <;> simp [h]
          · rcases ih res with h | h <;> simp [h]
    · simp

theorem pickOneAux_mem (wb : List (Nat × Nat)) (cfg : Config) (now : Nat)
    (accs : List (Nat × Nat)) {id : Nat} (h : pickOneAux wb cfg now accs = some id) :
    id ∈ keys accs := by
  simp only [pickOneAux] at h
  split at h
  · cases accs with
    | nil => simp at h
    | cons p t =>
      simp only [List.head?, Option.map] at h
      injection h with h
      exact h ▸ mem_keys_of_mem (List.mem_cons_self _ _)
  · rename_i hne
    injection h with h
    rcases pickOneScan_fst wb cfg now accs (0, 0) with h0 | h0
    · exact absurd (h ▸ h0) hne
    · exact h ▸ h0

theorem fetchByAccessTimeGo_mem (wb : List (Nat × Nat)) (cfg : Config) (now : Nat) :
    ∀ (accs : List (Nat × Nat)) (hp : List (Int × Nat)) {p : Int × Nat},
      p ∈ fetchByAccessTimeGo wb cfg now accs hp → p ∈ hp ∨ p.2 ∈ keys accs := by
  intro accs
  induction accs with
  | nil => intro hp p h; exact Or.inl h
  | cons a rest ih =>
    intro hp p h
    obtain ⟨id, time⟩ := a
    simp only [fetchByAccessTimeGo] at h
    split at h
    · split at h
      · rcases ih _ h with h' | h'
        · exact Or.inl h'
        · exact Or.inr (keys_cons _ _ ▸ List.mem_cons_of_mem _ h')
      · rename_i size _
        split at h
        · rcases ih _ h with h' | h'
          · exact Or.inl h'
          · exact Or.inr (keys_cons _ _ ▸ List.mem_cons_of_mem _ h')
        · split at h
          · rcases ih _ h with h' | h'
            · rcases heapPush_subset pairLt pdef hp _ h' with h'' | h''
              · exact Or.inl h''
              · exact Or.inr (keys_cons _ _ ▸ (h'' ▸ List.mem_cons_self _ _))
            · exact Or.inr (keys_cons _ _ ▸ List.mem_cons_of_mem _ h')
          · split at h
            · rcases ih _ h with h' | h'
              · simp only [siftDown] at h'
                have h₂ := siftDownFuel_subset pairLt pdef _ _ _ h'
                rcases List.mem_or_eq_of_mem_set h₂ with h₃ | h₃
                · exact Or.inl h₃
                · exact Or.inr (keys_cons _ _ ▸ (h₃ ▸ List.mem_cons_self _ _))
              · exact Or.inr (keys_cons _ _ ▸ List.mem_cons_of_mem _ h')
            · rcases ih _ h with h' | h'
              · exact Or.inl h'
              · exact Or.inr (keys_cons _ _ ▸ List.mem_cons_of_mem _ h')
    · exact Or.inl h

theorem fetchByAccessTime_mem (wb : List (Nat × Nat)) (cfg : Config) (now : Nat)
    (accs : List (Nat × Nat)) {id : Nat} (h : id ∈ fetchByAccessTime wb cfg now accs) :
    id ∈ keys accs := by
  simp only [fetchByAccessTime] at h
  rcases List.mem_map.mp h with ⟨p, hp, hpid⟩
  rcases fetchByAccessTimeGo_mem wb cfg now accs [] hp with h' | h'
  · exact absurd h' (List.not_mem_nil p)
  · exact hpid ▸ h'

theorem sizeCandidates_mem (wb : List (Nat × Nat)) (cfg : Config) :
    ∀ (accs : List (Nat × Nat)) {s id : Nat},
      (s, id) ∈ sizeCandidates wb cfg accs → id ∈ keys accs := by
  intro accs
  induction accs with
  | nil => intro s id h; exact absurd h (List.not_mem_nil _)
  | cons a rest ih =>
    intro s id h
    obtain ⟨rid, time⟩ := a
    simp only [sizeCandidates] at h
    split at h
    · exact keys_cons _ _ ▸ List.mem_cons_of_mem _ (ih h)
    · split at h
      · exact keys_cons _ _ ▸ List.mem_cons_of_mem _ (ih h)
      · rcases List.mem_cons.mp h with h' | h'
        · injection h' with h1 h2
          exact keys_cons _ _ ▸ (h2 ▸ List.mem_cons_self _ _)
        · exact keys_cons _ _ ▸ List.mem_cons_of_mem _ (ih h')

theorem buildPriority_mem (n : Nat) :
    ∀ (pos : Nat) (l : List (Nat × Nat)) {x : Nat × Nat × Nat},
      x ∈ buildPriority n pos l → (x.2.1, x.2.2) ∈ l := by
  intro pos l
  induction l generalizing pos with
  | nil => intro x h; exact absurd h (List.not_mem_nil _)
  | cons a rest ih =>
    intro x h
    obtain ⟨size, id⟩ := a
    simp only [buildPriority] at h
    rcases List.mem_cons.mp h with h' | h'
    · subst h'
      exact List.mem_cons_self _ _
    · exact List.mem_cons_of_mem _ (ih _ h')

theorem sizeLoopFuel_mem :
    ∀ (fuel : Nat) (hp : List (Nat × Nat × Nat)) (cl : Nat) {id : Nat},
      id ∈ sizeLoopFuel fuel hp cl → ∃ x ∈ hp, x.2.2 = id := by
  intro fuel
  induction fuel with
  | zero => intro hp cl id h; exact absurd h (List.not_mem_nil _)
  | succ n ih =>
    intro hp cl id h
    simp only [sizeLoopFuel] at h
    split at h
    · exact absurd h (List.not_mem_nil _)
    · rename_i x h' hpop
      have hsub := heapPop_subset tripleLt tdef hp hpop
      split at h
      · rcases List.mem_singleton.mp h with h''
        exact ⟨x, hsub.1, h'' ▸ rfl⟩
      · rcases List.mem_cons.mp h with h'' | h''
        · exact ⟨x, hsub.1, h'' ▸ rfl⟩
        · rcases ih _ _ h'' with ⟨y, hy, hyid⟩
          exact ⟨y, hsub.2 y hy, hyid⟩

theorem fetchBySize_mem (wb : List (Nat × Nat)) (cfg : Config)
    (accs : List (Nat × Nat)) (mutm : Nat) {id : Nat}
    (h : id ∈ fetchBySize wb cfg accs mutm) : id ∈ keys accs := by
  simp only [fetchBySize] at h
  rcases sizeLoopFuel_mem _ _ _ h with ⟨x, hx, hxid⟩
  have hx₂ := heapifyFuel_subset tripleLt tdef _ _ hx
  have hx₃ := buildPriority_mem _ _ _ hx₂
  have hx₄ := List.dropLast_subset _ hx₃
  exact hxid ▸ sizeCandidates_mem wb cfg accs hx₄

theorem pickBatchAux_mem (wb : List (Nat × Nat)) (cfg : Config) (now : Nat)
    (accs : List (Nat × Nat)) (mutm : Nat) {id : Nat}
    (h : id ∈ pickBatchAux wb cfg now accs mutm) : id ∈ keys accs := by
  simp only [pickBatchAux] at h
  repeat' split at h
  all_goals first
    | exact fetchBySize_mem wb cfg accs mutm h
    | exact fetchByAccessTime_mem wb cfg now accs h
    | (rcases List.mem_map.mp h with ⟨p, hp, hpid⟩
       exact hpid ▸ mem_keys_of_mem (List.take_subset _ _ hp))

/-- C2 as amended: every region id in the planner output has an entry in
`last_access` at planning time.  (Membership in `write_buffers` does not
hold on the `pick_one` fallback and Stage C paths; see the
counterexample.) -/
theorem pick_to_flush_mem_last_access (st : WriteBufferManager)
    (now mem mutm id : Nat) (h : id ∈ pick_to_flush st now mem mutm) :
    id ∈ keys st.last_access := by
  simp only [pick_to_flush] at h
  split at h
  · exact absurd h (List.not_mem_nil _)
  · split at h
    · exact absurd h (List.not_mem_nil _)
    · split at h
      · split at h
        · rename_i j hj
          rcases List.mem_singleton.mp h with h'
          subst h'
          exact mem_keys_sortByAccess.mp (pickOneAux_mem _ _ _ _ hj)
        · exact absurd h (List.not_mem_nil _)
      · exact mem_keys_sortByAccess.mp
          (pickBatchAux_mem st.write_buffers st.cfg now _ mutm h)

/-- C2 witness: at `stC2` the planner picks region 7, which is tracked in
`last_access`. -/
theorem pick_to_flush_mem_last_access_witness :
    7 ∈ pick_to_flush stC2 100 9 1 ∧ 7 ∈ keys stC2.last_access :=
  ⟨by decide, pick_to_flush_mem_last_access stC2 100 9 1 7 (by decide)⟩

/-- C2 counterexample: at `stC2` the planner (through the `pick_one`
fallback) returns region 7, which has no entry in `write_buffers`, refuting
the claim that every output id is present in both maps. -/
theorem pick_one_fallback_missing_write_buffer :
    pick_to_flush stC2 100 9 1 = [7] ∧ lookup stC2.write_buffers 7 = none := by decide

/-! ### C9: executor error handling -/

theorem execBatch_congr (tb₁ tb₂ : Nat → Option TabletState) (now : Nat)
    (h : ∀ id, tabletView (tb₁ id) = tabletView (tb₂ id)) :
    ∀ (victims : List Nat) (st : WriteBufferManager),
      execBatch tb₁ now st victims = execBatch tb₂ now st victims := by
  intro victims
  induction victims with
  | nil => intro st; rfl
  | cons v rest ih =>
    intro st
    have hv := h v
    simp only [tabletView] at hv
    cases h₁ : tb₁ v with
    | none =>
      rw [h₁] at hv
      cases h₂ : tb₂ v with
      | none => simp [execBatch, h₁, h₂]
      | some tab₂ => rw [h₂] at hv; simp at hv
    | some tab₁ =>
      rw [h₁] at hv
      cases h₂ : tb₂ v with
      | none => rw [h₂] at hv; simp at hv
      | some tab₂ =>
        rw [h₂] at hv
        simp only [Option.map] at hv
        injection hv with hv
        simp only [execBatch, h₁, h₂, hv]
        exact ih _

/-- C9.  The executor's tick: (i) flush errors are invisible — two tablet
registries that agree on tablet presence and post-flush sizes, differing
only in flush-error outcomes, produce the same controller state; (ii) the
batch loop processes exactly the longest prefix of victims whose tablet is
present (a missing tablet aborts the rest), folding `mark_flush` over it;
and (iii) the tick is a total function into controller states — no error is
propagated to the worker runtime. -/
theorem on_timeout_error_handling (tb₁ tb₂ : Nat → Option TabletState)
    (now mem mutm : Nat) (st : WriteBufferManager)
    (h : ∀ id, tabletView (tb₁ id) = tabletView (tb₂ id)) :
    on_timeout tb₁ now mem mutm st = on_timeout tb₂ now mem mutm st ∧
    ∀ (victims : List Nat) (st₀ : WriteBufferManager),
      execBatch tb₁ now st₀ victims =
        (victims.takeWhile (fun id => (tb₁ id).isSome)).foldl
          (fun s id => mark_flush s id now (afterSize (tb₁ id))) st₀ := by
  constructor
  · simp only [on_timeout]
    split
    · rfl
    · exact execBatch_congr tb₁ tb₂ now h _ st
  · intro victims
    induction victims with
    | nil => intro st₀; rfl
    | cons v rest ih =>
      intro st₀
      cases h₁ : tb₁ v with
      | none => simp [execBatch, List.takeWhile_cons, h₁]
      | some tab =>
        simp only [execBatch, h₁]
        rw [ih]
        simp [List.takeWhile_cons, h₁, afterSize]

/-- C9 witness: at `stC9` the planner selects region 7; the two registries
`tbC9a` and `tbC9b` differ only in region 7's flush outcome, and the tick
states agree; the batch loop on `[7, 99]` stops at region 99 (no tablet). -/
theorem on_timeout_error_handling_witness :
    (∀ id, tabletView (tbC9a id) = tabletView (tbC9b id)) ∧
    on_timeout tbC9a 100 9 1 stC9 = on_timeout tbC9b 100 9 1 stC9 ∧
    execBatch tbC9a 100 stC9 [7, 99] =
      (([7, 99].takeWhile (fun id => (tbC9a id).isSome)).foldl
        (fun s id => mark_flush s id 100 (afterSize (tbC9a id))) stC9) := by
  have hview : ∀ id, tabletView (tbC9a id) = tabletView (tbC9b id) := by
    intro id
    unfold tbC9a tbC9b tabletView
    by_cases hid : id = 7 <;> simp [hid]
  have h := on_timeout_error_handling tbC9a tbC9b 100 9 1 stC9 hview
  exact ⟨hview, h.1, h.2 [7, 99] stC9⟩

/-! ### C10: the region-id-0 sentinel in pick_one -/

/-- C10.  `pick_one` uses region id 0 as the in-band "no candidate" marker:
whenever the cold-large scan ends with id 0 — in particular when the largest
cold qualifying candidate is region 0 itself — the fallback path returns
the single coldest entry regardless of size; consequently region 0 can only
ever be returned through the fallback path, i.e. when it is the coldest
tracked region. -/
theorem pick_one_zero_sentinel (st : WriteBufferManager) (now : Nat) :
    ((pickOneScan st.write_buffers st.cfg now (sortByAccess st.last_access) (0, 0)).1 = 0 →
      pick_one st now = (sortByAccess st.last_access).head?.map Prod.fst) ∧
    (pick_one st now = some 0 →
      (sortByAccess st.last_access).head?.map Prod.fst = some 0) := by
  constructor
  · intro h0
    simp only [pick_one, pickOneAux]
    rw [if_pos h0]
  · intro h
    simp only [pick_one, pickOneAux] at h
    by_cases h0 :
        (pickOneScan st.write_buffers st.cfg now (sortByAccess st.last_access) (0, 0)).1 = 0
    · rw [if_pos h0] at h
      exact h
    · rw [if_neg h0] at h
      injection h with h
      exact absurd h h0

/-- C10 witness: at `stC10` region 0 is itself the largest cold qualifying
candidate (the scan ends with `(0, 5)`), and `pick_one` returns region 0 —
through the fallback, because region 0 is also the coldest entry. -/
theorem pick_one_zero_sentinel_witness :
    (pickOneScan stC10.write_buffers stC10.cfg 100 (sortByAccess stC10.last_access) (0, 0)).1
        = 0 ∧
    pick_one stC10 100 = (sortByAccess stC10.last_access).head?.map Prod.fst ∧
    pick_one stC10 100 = some 0 ∧
    (sortByAccess stC10.last_access).head?.map Prod.fst = some 0 := by
  have h := pick_one_zero_sentinel stC10 100
  exact ⟨by decide, h.1 (by decide), by decide, h.2 (by decide)⟩

end WBFC
